import Mathlib

/-!
# Verification of the Model-Based Diffusion planner

Shallow embedding over `ℝ` of the reverse-diffusion trajectory optimizer:

* the noise-schedule construction and the simple reward-weighted reverse
  step (`reverse_once` of `mbd/planners/mbd_planner.py`, lines 83-138,
  with `enable_demo = False`), together with the seed-threaded outer loop
  `run_diffusion`;
* the Gaussian-mixture importance-sampling reverse step
  (`reverse_once` of `sampling/mc_brax_gmm.py`, lines 153-195).

Machine floats are modelled by exact reals; the environment rollout is an
external collaborator and enters as an explicit function parameter, and the
JAX pseudo-random stream is modelled by an abstract key type with an
explicit deterministic `split` function and an explicit noise generator,
so every random draw of the source appears here as an explicit argument.
-/

namespace MBD

/-- An action trajectory: a real array of shape `[Horizon, ActionDim]`. -/
def Traj (H A : ℕ) : Type := Fin H → Fin A → ℝ

/-- Elementwise `jnp.clip(x, lo, hi) = min(max(x, lo), hi)`. -/
noncomputable def clip (x lo hi : ℝ) : ℝ := min (max x lo) hi

/-- `betas = jnp.linspace(beta0, betaT, Ndiffuse)`:
`beta[t] = beta0 + (betaT - beta0) * t / (Ndiffuse - 1)`. -/
noncomputable def betas (beta0 betaT : ℝ) (Nd : ℕ) (t : ℕ) : ℝ :=
  beta0 + (betaT - beta0) * t / ((Nd : ℝ) - 1)

/-- `alphas = 1.0 - betas`. -/
noncomputable def alphas (beta0 betaT : ℝ) (Nd t : ℕ) : ℝ :=
  1 - betas beta0 betaT Nd t

/-- `alphas_bar = jnp.cumprod(alphas)`: the running product of the `alphas`
up to and including index `t`. -/
noncomputable def alphas_bar (beta0 betaT : ℝ) (Nd t : ℕ) : ℝ :=
  ∏ k ∈ Finset.range (t + 1), alphas beta0 betaT Nd k

/-- `sigmas = jnp.sqrt(1 - alphas_bar)`. -/
noncomputable def sigmas (beta0 betaT : ℝ) (Nd t : ℕ) : ℝ :=
  Real.sqrt (1 - alphas_bar beta0 betaT Nd t)

/-- `jnp.mean` of a vector. -/
noncomputable def mean {N : ℕ} (x : Fin N → ℝ) : ℝ := (∑ n, x n) / N

/-- `jnp.std` of a vector (population standard deviation, `ddof = 0`). -/
noncomputable def std {N : ℕ} (x : Fin N → ℝ) : ℝ :=
  Real.sqrt (mean fun n => (x n - mean x) ^ 2)

/-- The degenerate-reward guard
`rew_std = jnp.where(rew_std < 1e-4, 1.0, rew_std)`. -/
noncomputable def rew_std_eff {N : ℕ} (x : Fin N → ℝ) : ℝ :=
  if std x < 1e-4 then 1 else std x

/-- `logp0 = (rews - rew_mean) / rew_std / temp_sample`. -/
noncomputable def logp0 {N : ℕ} (temp : ℝ) (r : Fin N → ℝ) : Fin N → ℝ :=
  fun n => (r n - mean r) / rew_std_eff r / temp

/-- `jax.nn.softmax`: in exact real arithmetic,
`softmax(x)_n = exp(x_n) / Σ_m exp(x_m)` (the max-shift applied internally
by the floating-point implementation is the identity over `ℝ`). -/
noncomputable def softmax {N : ℕ} (x : Fin N → ℝ) : Fin N → ℝ :=
  fun n => Real.exp (x n) / ∑ m, Real.exp (x m)

section Lemmas

variable {N : ℕ}

lemma clip_le_hi (x lo hi : ℝ) : clip x lo hi ≤ hi := min_le_right _ _

lemma lo_le_clip (x lo hi : ℝ) (h : lo ≤ hi) : lo ≤ clip x lo hi :=
  le_min (le_max_right _ _) h

/-- Clipping to a symmetric interval commutes with negation. -/
lemma clip_neg (x c : ℝ) (hc : 0 ≤ c) : clip (-x) (-c) c = -clip x (-c) c := by
  unfold clip
  rw [max_def, max_def, min_def, min_def]
  split_ifs <;> linarith

lemma exp_sum_pos (hN : 0 < N) (x : Fin N → ℝ) : 0 < ∑ m, Real.exp (x m) :=
  Finset.sum_pos (fun m _ => Real.exp_pos (x m))
    (Finset.univ_nonempty_iff.mpr (Fin.pos_iff_nonempty.mp hN))

lemma softmax_nonneg (hN : 0 < N) (x : Fin N → ℝ) (n : Fin N) :
    0 ≤ softmax x n :=
  div_nonneg (Real.exp_pos _).le (exp_sum_pos hN x).le

lemma softmax_sum_one (hN : 0 < N) (x : Fin N → ℝ) :
    ∑ n, softmax x n = 1 := by
  unfold softmax
  rw [← Finset.sum_div, div_self (exp_sum_pos hN x).ne']

lemma mean_const (hN : 0 < N) (c : ℝ) : mean (fun _ : Fin N => c) = c := by
  have hN' : (N : ℝ) ≠ 0 := Nat.cast_ne_zero.mpr hN.ne'
  unfold mean
  rw [Finset.sum_const, Finset.card_univ, Fintype.card_fin, nsmul_eq_mul,
    mul_div_cancel_left₀ _ hN']

lemma std_const (hN : 0 < N) (c : ℝ) : std (fun _ : Fin N => c) = 0 := by
  simp [std, mean_const hN]

lemma softmax_const (hN : 0 < N) (c : ℝ) :
    ∀ n, softmax (fun _ : Fin N => c) n = 1 / N := by
  intro n
  unfold softmax
  rw [Finset.sum_const, Finset.card_univ, Fintype.card_fin, nsmul_eq_mul]
  rw [div_mul_eq_div_div_swap, div_self (Real.exp_pos c).ne']

end Lemmas

/-! ## The simple reward-weighted reverse step

`reverse_once` of `mbd/planners/mbd_planner.py` (lines 96-138, with
`enable_demo = False`), split into its named intermediates.  The
environment rollout `rollout_us` is an external collaborator: it enters as
the function `rollout` mapping a candidate trajectory to its per-step
reward vector.  The Gaussian draw `eps_u` enters as the explicit argument
`eps`. -/

/-- `Yi = Ybar_i * jnp.sqrt(alphas_bar[i])`. -/
noncomputable def Yi_of (b0 bT : ℝ) (Nd i : ℕ) {H A : ℕ} (Ybar : Traj H A) :
    Traj H A :=
  fun h a => Ybar h a * Real.sqrt (alphas_bar b0 bT Nd i)

/-- `Y0s = eps_u * sigmas[i] + Ybar_i; Y0s = jnp.clip(Y0s, -1.0, 1.0)`. -/
noncomputable def candidates (b0 bT : ℝ) (Nd i : ℕ) {H A Ns : ℕ}
    (Ybar : Traj H A) (eps : Fin Ns → Traj H A) : Fin Ns → Traj H A :=
  fun n h a => clip (eps n h a * sigmas b0 bT Nd i + Ybar h a) (-1) 1

/-- `rews = rewss.mean(axis=-1)`: the mean per-step reward of each rolled
out candidate. -/
noncomputable def rews {H A Ns : ℕ} (rollout : Traj H A → Fin H → ℝ)
    (Y0s : Fin Ns → Traj H A) : Fin Ns → ℝ :=
  fun n => (∑ h, rollout (Y0s n) h) / H

/-- `Ybar = jnp.einsum("n,nij->ij", weights, Y0s)`. -/
noncomputable def weightedMean {H A Ns : ℕ} (w : Fin Ns → ℝ)
    (Y0s : Fin Ns → Traj H A) : Traj H A :=
  fun h a => ∑ n, w n * Y0s n h a

/-- `score = 1 / (1.0 - alphas_bar[i]) * (-Yi + jnp.sqrt(alphas_bar[i]) * Ybar)`. -/
noncomputable def scoreOf (b0 bT : ℝ) (Nd i : ℕ) {H A : ℕ} (Yi Ybar : Traj H A) :
    Traj H A :=
  fun h a => 1 / (1 - alphas_bar b0 bT Nd i) *
    (-(Yi h a) + Real.sqrt (alphas_bar b0 bT Nd i) * Ybar h a)

/-- `Yim1 = 1 / jnp.sqrt(alphas[i]) * (Yi + (1.0 - alphas_bar[i]) * score)`. -/
noncomputable def Yim1_of (b0 bT : ℝ) (Nd i : ℕ) {H A : ℕ} (Yi sc : Traj H A) :
    Traj H A :=
  fun h a => 1 / Real.sqrt (alphas b0 bT Nd i) *
    (Yi h a + (1 - alphas_bar b0 bT Nd i) * sc h a)

/-- `Ybar_im1 = Yim1 / jnp.sqrt(alphas_bar[i - 1])`. -/
noncomputable def Ybar_im1_of (b0 bT : ℝ) (Nd i : ℕ) {H A : ℕ} (Y : Traj H A) :
    Traj H A :=
  fun h a => Y h a / Real.sqrt (alphas_bar b0 bT Nd (i - 1))

/-- The noise-free latent conversion of lines 133-136: weighted mean in,
next trajectory estimate out.  It takes no noise argument. -/
noncomputable def latentStep (b0 bT : ℝ) (Nd i : ℕ) {H A : ℕ}
    (Yi Ybar : Traj H A) : Traj H A :=
  Ybar_im1_of b0 bT Nd i (Yim1_of b0 bT Nd i Yi (scoreOf b0 bT Nd i Yi Ybar))

/-- One reverse-diffusion step of the simple variant: the body of
`reverse_once` (lines 96-138, demo branch disabled), returning the updated
trajectory estimate `Ybar_im1`. -/
noncomputable def reverse_once (b0 bT : ℝ) (Nd : ℕ) (temp : ℝ) {H A Ns : ℕ}
    (rollout : Traj H A → Fin H → ℝ) (i : ℕ) (Ybar : Traj H A)
    (eps : Fin Ns → Traj H A) : Traj H A :=
  latentStep b0 bT Nd i (Yi_of b0 bT Nd i Ybar)
    (weightedMean
      (softmax (logp0 temp (rews rollout (candidates b0 bT Nd i Ybar eps))))
      (candidates b0 bT Nd i Ybar eps))

/-! ## Schedule lemmas -/

section Schedule

variable {b0 bT : ℝ} {Nd : ℕ}

lemma Nd_sub_one_pos (hN : 2 ≤ Nd) : (0 : ℝ) < (Nd : ℝ) - 1 := by
  have : (2 : ℝ) ≤ (Nd : ℝ) := by exact_mod_cast hN
  linarith

lemma beta0_le_betas (hle : b0 ≤ bT) (hN : 2 ≤ Nd) (k : ℕ) :
    b0 ≤ betas b0 bT Nd k := by
  have hpos := Nd_sub_one_pos hN
  have : 0 ≤ (bT - b0) * k / ((Nd : ℝ) - 1) := by
    apply div_nonneg _ hpos.le
    exact mul_nonneg (by linarith) (Nat.cast_nonneg k)
  unfold betas; linarith

lemma betas_le_betaT (hle : b0 ≤ bT) (hN : 2 ≤ Nd) {k : ℕ} (hk : k < Nd) :
    betas b0 bT Nd k ≤ bT := by
  have hpos := Nd_sub_one_pos hN
  have hk' : (k : ℝ) ≤ (Nd : ℝ) - 1 := by
    have : (k : ℝ) + 1 ≤ (Nd : ℝ) := by exact_mod_cast hk
    linarith
  have h1 : (bT - b0) * k / ((Nd : ℝ) - 1) ≤ bT - b0 := by
    rw [div_le_iff hpos]
    calc (bT - b0) * k ≤ (bT - b0) * ((Nd : ℝ) - 1) :=
          mul_le_mul_of_nonneg_left hk' (by linarith)
      _ = (bT - b0) * ((Nd : ℝ) - 1) := rfl
  unfold betas; linarith

lemma betas_mono (hle : b0 ≤ bT) (hN : 2 ≤ Nd) {k j : ℕ} (hkj : k ≤ j) :
    betas b0 bT Nd k ≤ betas b0 bT Nd j := by
  have hpos := Nd_sub_one_pos hN
  unfold betas
  have h1 : (bT - b0) * k ≤ (bT - b0) * j :=
    mul_le_mul_of_nonneg_left (by exact_mod_cast hkj) (by linarith)
  have h2 : (bT - b0) * k / ((Nd : ℝ) - 1) ≤ (bT - b0) * j / ((Nd : ℝ) - 1) :=
    (div_le_div_right hpos).mpr h1
  linarith

/-- Every factor `alphas k` with `k < Nd` is positive under a valid
configuration. -/
lemma alphas_pos (hle : b0 ≤ bT) (hT : bT < 1) (hN : 2 ≤ Nd) {k : ℕ}
    (hk : k < Nd) : 0 < alphas b0 bT Nd k := by
  have := betas_le_betaT hle hN hk
  unfold alphas; linarith

/-- Every factor `alphas k` is at most `1 - beta0`. -/
lemma alphas_le (h0 : 0 < b0) (hle : b0 ≤ bT) (hN : 2 ≤ Nd) (k : ℕ) :
    alphas b0 bT Nd k ≤ 1 - b0 := by
  have := beta0_le_betas hle hN k
  unfold alphas; linarith

lemma alphas_bar_pos (hle : b0 ≤ bT) (hT : bT < 1) (hN : 2 ≤ Nd) {t : ℕ}
    (ht : t < Nd) : 0 < alphas_bar b0 bT Nd t := by
  apply Finset.prod_pos
  intro k hk
  exact alphas_pos hle hT hN (lt_of_lt_of_le (Finset.mem_range.mp hk) ht)

lemma alphas_bar_le_one (h0 : 0 < b0) (hle : b0 ≤ bT) (hT : bT < 1)
    (hN : 2 ≤ Nd) {t : ℕ} (ht : t < Nd) : alphas_bar b0 bT Nd t ≤ 1 := by
  apply Finset.prod_le_one
  · intro k hk
    exact (alphas_pos hle hT hN (lt_of_lt_of_le (Finset.mem_range.mp hk) ht)).le
  · intro k hk
    have := alphas_le h0 hle hN k
    linarith

lemma alphas_bar_zero (b0 bT : ℝ) (Nd : ℕ) :
    alphas_bar b0 bT Nd 0 = 1 - b0 := by
  unfold alphas_bar alphas betas
  rw [Finset.prod_range_one]
  norm_num

lemma alphas_bar_succ (b0 bT : ℝ) (Nd t : ℕ) :
    alphas_bar b0 bT Nd (t + 1) =
      alphas_bar b0 bT Nd t * alphas b0 bT Nd (t + 1) :=
  Finset.prod_range_succ _ _

/-- Strict decrease of the cumulative product within the schedule. -/
lemma alphas_bar_strict_anti (h0 : 0 < b0) (hle : b0 ≤ bT) (hT : bT < 1)
    (hN : 2 ≤ Nd) {t : ℕ} (ht : t + 1 < Nd) :
    alphas_bar b0 bT Nd (t + 1) < alphas_bar b0 bT Nd t := by
  rw [alphas_bar_succ]
  have hpos : 0 < alphas_bar b0 bT Nd t :=
    alphas_bar_pos hle hT hN (by omega)
  have hlt : alphas b0 bT Nd (t + 1) < 1 := by
    have := beta0_le_betas hle hN (t + 1)
    unfold alphas; linarith
  exact mul_lt_of_lt_one_right hpos hlt

/-- Weak antitonicity of the cumulative product on the schedule range. -/
lemma alphas_bar_anti (h0 : 0 < b0) (hle : b0 ≤ bT) (hT : bT < 1)
    (hN : 2 ≤ Nd) {s t : ℕ} (hst : s ≤ t) (ht : t < Nd) :
    alphas_bar b0 bT Nd t ≤ alphas_bar b0 bT Nd s := by
  induction t, hst using Nat.le_induction with
  | base => exact le_refl _
  | succ m hm ih =>
      have h1 : m < Nd := by omega
      exact le_trans (alphas_bar_strict_anti h0 hle hT hN ht).le (ih h1)

end Schedule

lemma clip_of_mem {x lo hi : ℝ} (h1 : lo ≤ x) (h2 : x ≤ hi) :
    clip x lo hi = x := by
  unfold clip
  rw [max_eq_left h1, min_eq_left h2]

/-- The candidate draw as the claim words it: perturbations around the
reconstructed noisy latent `Y_t`, i.e. `Y0_i = Y_t + sigma[t] * noise_i`,
clipped to `[-1, 1]`.  (The source instead perturbs around `Ybar_i`;
compare `candidates`.) -/
noncomputable def candidates_claim (b0 bT : ℝ) (Nd i : ℕ) {H A Ns : ℕ}
    (Ybar : Traj H A) (eps : Fin Ns → Traj H A) : Fin Ns → Traj H A :=
  fun n h a =>
    clip (Yi_of b0 bT Nd i Ybar h a + sigmas b0 bT Nd i * eps n h a) (-1) 1

/-- C1 counterexample: with `beta0 = 1/2`, `betaT = 3/4`, `Ndiffuse = 2`,
at step `i = 1` with `Ybar ≡ 1/2` and zero noise, the candidate actually
drawn by the code (`clip(eps*sigma + Ybar) = 1/2`) differs from the
candidate the claim describes (`clip(Y_t + sigma*eps) = (1/2)*sqrt(1/8)`):
the code perturbs around `Ybar_t`, not around `Y_t = Ybar_t*sqrt(alpha_bar[t])`. -/
theorem c1_counterexample :
    candidates (1/2) (3/4) 2 1 ((fun _ _ => (1/2 : ℝ)) : Traj 1 1)
        ((fun _ _ _ => 0) : Fin 1 → Traj 1 1) 0 0 0 ≠
      candidates_claim (1/2) (3/4) 2 1 ((fun _ _ => (1/2 : ℝ)) : Traj 1 1)
        ((fun _ _ _ => 0) : Fin 1 → Traj 1 1) 0 0 0 := by
  have hab : alphas_bar (1/2) (3/4) 2 1 = 1/8 := by
    unfold alphas_bar alphas betas
    rw [Finset.prod_range_succ, Finset.prod_range_one]
    norm_num
  have hs8 : Real.sqrt (1/8) < 1 := by
    have h1 : Real.sqrt (1/8) < Real.sqrt 1 :=
      Real.sqrt_lt_sqrt (by norm_num) (by norm_num)
    simpa using h1
  have hs8' : 0 ≤ Real.sqrt (1/8) := Real.sqrt_nonneg _
  unfold candidates candidates_claim Yi_of
  rw [hab]
  rw [zero_mul, zero_add, mul_zero, add_zero]
  rw [clip_of_mem (by norm_num) (by norm_num),
    clip_of_mem (by nlinarith) (by nlinarith)]
  intro heq
  nlinarith

/-- C1 (amended): the per-step transition reconstructs
`Y_t = Ybar_t * sqrt(alpha_bar[t])` (used only in the score step), draws
every candidate as `Y0_i = Ybar_t + sigma[t] * noise_i`, and clips to
`[-1, 1]`, so every entry of every candidate lies in `[-1, 1]` no matter
how large the injected noise is. -/
theorem c1_candidates_clipped (b0 bT : ℝ) (Nd i : ℕ) {H A Ns : ℕ}
    (Ybar : Traj H A) (eps : Fin Ns → Traj H A) :
    (∀ h a, Yi_of b0 bT Nd i Ybar h a
        = Ybar h a * Real.sqrt (alphas_bar b0 bT Nd i)) ∧
    (∀ n h a, candidates b0 bT Nd i Ybar eps n h a
        = clip (eps n h a * sigmas b0 bT Nd i + Ybar h a) (-1) 1) ∧
    (∀ n h a, -1 ≤ candidates b0 bT Nd i Ybar eps n h a ∧
        candidates b0 bT Nd i Ybar eps n h a ≤ 1) :=
  ⟨fun _ _ => rfl, fun _ _ _ => rfl,
    fun _ _ _ => ⟨lo_le_clip _ _ _ (by norm_num), clip_le_hi _ _ _⟩⟩

/-- C2: `reverse_once` factors through the noise-free `latentStep` applied
to the softmax-weighted mean (the conversion stage takes no noise input:
randomness enters only through the candidate sampling), and `latentStep`
is exactly the spec chain
`score = (1/(1-alpha_bar[t])) * (-Y_t + sqrt(alpha_bar[t]) * Ybar_new)`,
`Y_{t-1} = (1/sqrt(alpha[t])) * (Y_t + (1-alpha_bar[t]) * score)`,
`Ybar_{t-1} = Y_{t-1} / sqrt(alpha_bar[t-1])`. -/
theorem c2_latent_step (b0 bT : ℝ) (Nd : ℕ) (temp : ℝ) {H A Ns : ℕ}
    (rollout : Traj H A → Fin H → ℝ) (i : ℕ) (Ybar : Traj H A)
    (eps : Fin Ns → Traj H A) :
    (reverse_once b0 bT Nd temp rollout i Ybar eps
      = latentStep b0 bT Nd i (Yi_of b0 bT Nd i Ybar)
          (weightedMean
            (softmax (logp0 temp
              (rews rollout (candidates b0 bT Nd i Ybar eps))))
            (candidates b0 bT Nd i Ybar eps))) ∧
    (∀ (Yi W : Traj H A) (h : Fin H) (a : Fin A),
      latentStep b0 bT Nd i Yi W h a =
        (1 / Real.sqrt (alphas b0 bT Nd i) *
          (Yi h a + (1 - alphas_bar b0 bT Nd i) *
            (1 / (1 - alphas_bar b0 bT Nd i) *
              (-(Yi h a) + Real.sqrt (alphas_bar b0 bT Nd i) * W h a)))) /
        Real.sqrt (alphas_bar b0 bT Nd (i - 1))) :=
  ⟨rfl, fun _ _ _ _ => rfl⟩

/-- C4 counterexample: the reward vector `(0, 1/100000)` has standard
deviation `1/200000 < 1e-4`, so the degenerate-reward guard fires, yet the
resulting softmax weights (at temperature 1) are not uniform: the claim's
"exactly uniform" conclusion fails for sub-threshold but nonzero spread. -/
theorem c4_counterexample :
    std (fun n : Fin 2 => if n = 0 then (0 : ℝ) else 1/100000) < 1e-4 ∧
      softmax (logp0 1 (fun n : Fin 2 => if n = 0 then (0 : ℝ) else 1/100000))
        0 ≠ 1/2 := by
  set r : Fin 2 → ℝ := fun n => if n = 0 then (0 : ℝ) else 1/100000 with hr
  have hmean : mean r = 1/200000 := by
    unfold mean
    rw [Fin.sum_univ_two]
    norm_num [hr]
  have hstd : std r = 1/200000 := by
    unfold std
    rw [hmean]
    have hsq : (mean fun n => (r n - 1/200000) ^ 2) = (1/200000) ^ 2 := by
      unfold mean
      rw [Fin.sum_univ_two]
      norm_num [hr]
    rw [hsq, Real.sqrt_sq (by norm_num)]
  have hlt : std r < 1e-4 := by rw [hstd]; norm_num
  refine ⟨hlt, ?_⟩
  have heff : rew_std_eff r = 1 := by unfold rew_std_eff; rw [if_pos hlt]
  have hl0 : logp0 1 r 0 = -(1/200000) := by
    unfold logp0
    rw [hmean, heff]
    norm_num [hr]
  have hl1 : logp0 1 r 1 = 1/200000 := by
    unfold logp0
    rw [hmean, heff]
    norm_num [hr]
  unfold softmax
  rw [Fin.sum_univ_two, hl0, hl1]
  have hexp : Real.exp (-(1/200000)) < Real.exp (1/200000) :=
    Real.exp_lt_exp.mpr (by norm_num)
  have hpos : 0 < Real.exp (-(1/200000)) + Real.exp (1/200000) := by positivity
  intro heq
  rw [div_eq_iff hpos.ne'] at heq
  nlinarith

/-- C4 (amended): whenever `std(reward) < 1e-4` the guard substitutes
`std = 1` (no division blow-up); in the zero-variance case, where all
candidates score equally, the softmax weight vector is exactly uniform,
`1/Nsample` for every candidate. -/
theorem c4_degenerate_guard {N : ℕ} (hN : 0 < N) (temp c : ℝ)
    (r : Fin N → ℝ) (hr : ∀ n, r n = c) :
    rew_std_eff r = 1 ∧ ∀ n, softmax (logp0 temp r) n = 1 / N := by
  have hrc : r = fun _ : Fin N => c := funext hr
  have hstd : std r < 1e-4 := by rw [hrc, std_const hN]; norm_num
  have heff : rew_std_eff r = 1 := by unfold rew_std_eff; rw [if_pos hstd]
  refine ⟨heff, fun n => ?_⟩
  have hl : logp0 temp r = fun _ : Fin N => 0 := by
    funext m
    unfold logp0
    rw [heff, hrc, mean_const hN]
    simp
  rw [hl]
  exact softmax_const hN 0 n

/-- Concrete witness for `c4_degenerate_guard` (`N = 2`, `c = 5`,
`temp = 1`). -/
theorem c4_degenerate_guard_witness :
    ((0 < 2) ∧ ∀ n : Fin 2, (fun _ : Fin 2 => (5 : ℝ)) n = 5) ∧
      (rew_std_eff (fun _ : Fin 2 => (5 : ℝ)) = 1 ∧
        ∀ n, softmax (logp0 1 (fun _ : Fin 2 => (5 : ℝ))) n
          = 1 / ((2 : ℕ) : ℝ)) :=
  ⟨⟨by norm_num, fun _ => rfl⟩,
    c4_degenerate_guard (by norm_num) 1 5 _ (fun _ => rfl)⟩

/-- C3: properties of the noise schedule built by `run_diffusion`:
the linear-spacing formula for `betas`, strict decrease and `(0, 1]`
membership of `alphas_bar`, `alphas_bar[0] = 1 - beta0`, and monotonicity
of `sigmas`. -/
theorem c3_schedule (b0 bT : ℝ) (Nd : ℕ) (h0 : 0 < b0) (h1 : b0 < bT)
    (h2 : bT < 1) (hN : 2 ≤ Nd) :
    (∀ t, betas b0 bT Nd t = b0 + (bT - b0) * t / ((Nd : ℝ) - 1)) ∧
    (∀ t, t + 1 < Nd →
      alphas_bar b0 bT Nd (t + 1) < alphas_bar b0 bT Nd t) ∧
    (∀ t, t < Nd → 0 < alphas_bar b0 bT Nd t ∧ alphas_bar b0 bT Nd t ≤ 1) ∧
    alphas_bar b0 bT Nd 0 = 1 - b0 ∧
    (∀ s t, s ≤ t → t < Nd → sigmas b0 bT Nd s ≤ sigmas b0 bT Nd t) := by
  have hle := h1.le
  refine ⟨fun t => rfl,
    fun t ht => alphas_bar_strict_anti h0 hle h2 hN ht,
    fun t ht => ⟨alphas_bar_pos hle h2 hN ht,
      alphas_bar_le_one h0 hle h2 hN ht⟩,
    alphas_bar_zero b0 bT Nd, ?_⟩
  intro s t hst ht
  unfold sigmas
  apply Real.sqrt_le_sqrt
  have := alphas_bar_anti h0 hle h2 hN hst ht
  linarith

/-- Concrete witness for `c3_schedule`
(`beta0 = 1/10`, `betaT = 1/2`, `Ndiffuse = 2`). -/
theorem c3_schedule_witness :
    ((0 : ℝ) < 1/10 ∧ (1/10 : ℝ) < 1/2 ∧ (1/2 : ℝ) < 1 ∧ 2 ≤ 2) ∧
      alphas_bar (1/10) (1/2) 2 0 = 1 - 1/10 :=
  ⟨⟨by norm_num, by norm_num, by norm_num, le_refl 2⟩,
    (c3_schedule (1/10) (1/2) 2 (by norm_num) (by norm_num) (by norm_num)
      (le_refl 2)).2.2.2.1⟩

end MBD

namespace GMM

open MBD

/-! ## The GMM importance-sampling reverse step

`reverse_once` of `sampling/mc_brax_gmm.py` (lines 153-195).  The rollout
reward `eval_us` is external and enters as the reward vector `r` already
collapsed to its per-candidate mean (`rews`), and the GMM proposal density
of the freshly drawn candidates enters as the vector `logq`. -/

/-- `eps_Yt = jnp.clip((Y0s[None] * jnp.sqrt(alphas_bar[t]) - Yts[:, None])
/ sigmas[t], -2.0, 2.0)`, of shape `(Nexp, Nsample, Hsample, Nu)`. -/
noncomputable def eps_Yt (ab_t sigma_t : ℝ) {Ne Ns H A : ℕ}
    (Y0s : Fin Ns → Traj H A) (Yts : Fin Ne → Traj H A) :
    Fin Ne → Fin Ns → Traj H A :=
  fun m n h a =>
    clip ((Y0s n h a * Real.sqrt ab_t - Yts m h a) / sigma_t) (-2) 2

/-- `logp_Yt_Y0s = -0.5 * jnp.mean(eps_Yt ** 2, axis=(2, 3))`. -/
noncomputable def logp_Yt_Y0s (ab_t sigma_t : ℝ) {Ne Ns H A : ℕ}
    (Y0s : Fin Ns → Traj H A) (Yts : Fin Ne → Traj H A) :
    Fin Ne → Fin Ns → ℝ :=
  fun m n =>
    -0.5 * ((∑ h, ∑ a, eps_Yt ab_t sigma_t Y0s Yts m n h a ^ 2)
      / ((H : ℝ) * A))

/-- `rews_normed = (rews - rews.mean()) / rews.std();
logp_Y0s = rews_normed / temp_sample`. -/
noncomputable def logp_Y0s (temp : ℝ) {Ns : ℕ} (r : Fin Ns → ℝ) :
    Fin Ns → ℝ :=
  fun n => ((r n - mean r) / std r) / temp

/-- `logp_Y0s_bar = logp_Y0s + logp_Yt_Y0s - logq_Y0s`. -/
noncomputable def logp_bar (ab_t sigma_t temp : ℝ) {Ne Ns H A : ℕ}
    (Y0s : Fin Ns → Traj H A) (Yts : Fin Ne → Traj H A)
    (r logq : Fin Ns → ℝ) : Fin Ne → Fin Ns → ℝ :=
  fun m n => logp_Y0s temp r n + logp_Yt_Y0s ab_t sigma_t Y0s Yts m n - logq n

/-- `jnp.max` over the whole `(Nexp, Nsample)` array (for nonempty index
ranges this finite supremum is the greatest entry). -/
noncomputable def maxAll {Ne Ns : ℕ} (f : Fin Ne → Fin Ns → ℝ) : ℝ :=
  ⨆ p : Fin Ne × Fin Ns, f p.1 p.2

/-- `logp_Y0s_bar = logp_Y0s_bar - jnp.max(logp_Y0s_bar)`. -/
noncomputable def logp_bar_shifted (ab_t sigma_t temp : ℝ) {Ne Ns H A : ℕ}
    (Y0s : Fin Ns → Traj H A) (Yts : Fin Ne → Traj H A)
    (r logq : Fin Ns → ℝ) : Fin Ne → Fin Ns → ℝ :=
  fun m n => logp_bar ab_t sigma_t temp Y0s Yts r logq m n
    - maxAll (logp_bar ab_t sigma_t temp Y0s Yts r logq)

/-- `jax.nn.softmax(logp_Y0s_bar, axis=-1)`: the per-chain importance
weights, applied to the max-subtracted log-weights. -/
noncomputable def weights (ab_t sigma_t temp : ℝ) {Ne Ns H A : ℕ}
    (Y0s : Fin Ns → Traj H A) (Yts : Fin Ne → Traj H A)
    (r logq : Fin Ns → ℝ) : Fin Ne → Fin Ns → ℝ :=
  fun m => softmax (logp_bar_shifted ab_t sigma_t temp Y0s Yts r logq m)

/-- `scores = alphas_bar[t] / (1 - alphas_bar[t])
* (Y0s_bar - Yts / jnp.sqrt(alphas_bar[t]))`. -/
noncomputable def scoresGMM (ab_t : ℝ) {Ne H A : ℕ}
    (Y0s_bar Yts : Fin Ne → Traj H A) : Fin Ne → Traj H A :=
  fun m h a =>
    ab_t / (1 - ab_t) * (Y0s_bar m h a - Yts m h a / Real.sqrt ab_t)

/-- `Ytsm1 = 1 / jnp.sqrt(1.0 - betas[t]) * (Yts + 0.5 * betas[t] * scores)
+ 1.0 * jnp.sqrt(betas[t]) * eps_Ytm1`, where `eps_Ytm1` is the fresh
standard-normal draw of shape `(Nexp, Hsample, Nu)` obtained from a new
split of the rng. -/
noncomputable def Ytsm1 (beta_t : ℝ) {Ne H A : ℕ}
    (Yts scores eps : Fin Ne → Traj H A) : Fin Ne → Traj H A :=
  fun m h a =>
    1 / Real.sqrt (1 - beta_t) * (Yts m h a + 0.5 * beta_t * scores m h a)
      + 1 * Real.sqrt beta_t * eps m h a

/-- Modelled from the spec words, for comparison with the source update:
`Y_{t-1} = (1/sqrt(1-beta[t])) * (Y_t + 0.5*beta[t]*score)
+ sqrt(beta[t]) * noise`. -/
noncomputable def ancestral_spec (beta_t : ℝ) {Ne H A : ℕ}
    (Yts scores eps : Fin Ne → Traj H A) : Fin Ne → Traj H A :=
  fun m h a =>
    1 / Real.sqrt (1 - beta_t) * (Yts m h a + 0.5 * beta_t * scores m h a)
      + Real.sqrt beta_t * eps m h a

/-- C6: the forward-process likelihood term equals
`-0.5 * mean(clip((Y_t - sqrt(alpha_bar[t])*Y_0)/sigma[t], -2, 2)^2)`
(the source computes the negated residual, which clipping to the symmetric
interval `[-2, 2]` and squaring renders identical), and the combined target
log-weight has its maximum subtracted before any exponentiation: the
softmax weights are applied to the shifted vector, all of whose entries
are nonpositive. -/
theorem c6_gmm_weights (ab_t sigma_t temp : ℝ) {Ne Ns H A : ℕ}
    (Y0s : Fin Ns → Traj H A) (Yts : Fin Ne → Traj H A)
    (r logq : Fin Ns → ℝ) :
    (∀ m n, logp_Yt_Y0s ab_t sigma_t Y0s Yts m n
        = -0.5 * ((∑ h, ∑ a,
            clip ((Yts m h a - Real.sqrt ab_t * Y0s n h a) / sigma_t)
              (-2) 2 ^ 2) / ((H : ℝ) * A))) ∧
    (∀ m n, logp_bar_shifted ab_t sigma_t temp Y0s Yts r logq m n
        = (logp_Y0s temp r n + logp_Yt_Y0s ab_t sigma_t Y0s Yts m n
            - logq n)
          - maxAll (logp_bar ab_t sigma_t temp Y0s Yts r logq)) ∧
    (∀ m n, logp_bar_shifted ab_t sigma_t temp Y0s Yts r logq m n ≤ 0) ∧
    (∀ m, weights ab_t sigma_t temp Y0s Yts r logq m
        = softmax (logp_bar_shifted ab_t sigma_t temp Y0s Yts r logq m)) := by
  refine ⟨?_, fun m n => rfl, ?_, fun m => rfl⟩
  · intro m n
    unfold logp_Yt_Y0s eps_Yt
    congr 2
    apply Finset.sum_congr rfl
    intro h _
    apply Finset.sum_congr rfl
    intro a _
    have hx : (Y0s n h a * Real.sqrt ab_t - Yts m h a) / sigma_t
        = -((Yts m h a - Real.sqrt ab_t * Y0s n h a) / sigma_t) := by ring
    rw [hx, clip_neg _ 2 (by norm_num), neg_sq]
  · intro m n
    have hb : BddAbove (Set.range fun p : Fin Ne × Fin Ns =>
        logp_bar ab_t sigma_t temp Y0s Yts r logq p.1 p.2) :=
      Set.Finite.bddAbove (Set.finite_range _)
    have hle := le_ciSup hb (⟨m, n⟩ : Fin Ne × Fin Ns)
    simp only [logp_bar_shifted, maxAll]
    exact sub_nonpos.mpr hle

/-- C7: the GMM per-chain ancestral update equals the spec formula
`Y_{t-1} = (1/sqrt(1-beta[t])) * (Y_t + 0.5*beta[t]*score)
+ sqrt(beta[t]) * noise` and genuinely injects the noise: for positive
`beta[t]` the update is injective in the noise draw, unlike the
deterministic step of the simple variant. -/
theorem c7_gmm_ancestral_noise (beta_t : ℝ) {Ne H A : ℕ}
    (Yts scores : Fin Ne → Traj H A) (hb : 0 < beta_t) :
    (∀ eps, Ytsm1 beta_t Yts scores eps
        = ancestral_spec beta_t Yts scores eps) ∧
    (∀ eps eps' : Fin Ne → Traj H A,
      Ytsm1 beta_t Yts scores eps = Ytsm1 beta_t Yts scores eps'
        → eps = eps') := by
  constructor
  · intro eps
    funext m h a
    unfold Ytsm1 ancestral_spec
    ring
  · intro eps eps' heq
    funext m h a
    have h1 := congrFun (congrFun (congrFun heq m) h) a
    unfold Ytsm1 at h1
    simp only [one_mul] at h1
    have hs : Real.sqrt beta_t ≠ 0 := (Real.sqrt_pos.mpr hb).ne'
    have h2 : Real.sqrt beta_t * eps m h a
        = Real.sqrt beta_t * eps' m h a := by linarith
    exact mul_left_cancel₀ hs h2

/-- Concrete witness for `c7_gmm_ancestral_noise` (`beta[t] = 1/2`, one
chain, horizon 1, one action dimension, zero latent and score). -/
theorem c7_gmm_ancestral_noise_witness :
    (0 : ℝ) < 1/2 ∧
      ((∀ eps, Ytsm1 (1/2) ((fun _ _ _ => 0) : Fin 1 → Traj 1 1)
          (fun _ _ _ => 0) eps
        = ancestral_spec (1/2) (fun _ _ _ => 0) (fun _ _ _ => 0) eps) ∧
      (∀ eps eps' : Fin 1 → Traj 1 1,
        Ytsm1 (1/2) (fun _ _ _ => 0) (fun _ _ _ => 0) eps
          = Ytsm1 (1/2) (fun _ _ _ => 0) (fun _ _ _ => 0) eps'
          → eps = eps')) :=
  ⟨by norm_num, c7_gmm_ancestral_noise (1/2) _ _ (by norm_num)⟩

end GMM

namespace MBD

/-! ## The outer loop of `run_diffusion`

The JAX pseudo-random stream is an abstract key type `K` with a
deterministic `split : K → K × K` (modelling `jax.random.split`) and a
deterministic noise generator `normal : K → Fin Ns → Traj H A` (modelling
`jax.random.normal`).  The environment reset-and-rollout closure is a
deterministic function of the reset key. -/

/-- The loop index list `range(Ndiffuse - 1, 0, -1) = [Nd-1, ..., 1]`. -/
def diffusionIndices (Nd : ℕ) : List ℕ :=
  ((List.range (Nd - 1)).reverse).map (fun k => k + 1)

/-- The `reverse` loop (lines 141-151): threads `(rng, Ybar)` through
`reverse_once` for each diffusion index; each step splits the key once,
carrying the first part and feeding the second to the candidate noise
draw (`rng, Y0s_rng = jax.random.split(rng)`), and returns the final
trajectory estimate. -/
noncomputable def runReverse {K : Type} (split : K → K × K) {H A Ns : ℕ}
    (normal : K → Fin Ns → Traj H A) (b0 bT : ℝ) (Nd : ℕ) (temp : ℝ)
    (rollout : Traj H A → Fin H → ℝ) (rng0 : K) (Y0 : Traj H A) :
    Traj H A :=
  ((diffusionIndices Nd).foldl
    (fun acc i =>
      ((split acc.1).1,
        reverse_once b0 bT Nd temp rollout i acc.2 (normal (split acc.1).2)))
    (rng0, Y0)).2

/-- `run_diffusion` (lines 37-154, with rendering and reporting stripped):
`rng, rng_reset = split(PRNGKey(seed))` fixes the initial state via the
reset key (here: the rollout closure), `rng_exp, rng = split(rng)` derives
the experiment key, and the reverse loop runs from the all-zero estimate
`YN`, returning the final `Ybar`. -/
noncomputable def run_diffusion {K : Type} (split : K → K × K)
    {H A Ns : ℕ} (normal : K → Fin Ns → Traj H A) (b0 bT : ℝ) (Nd : ℕ)
    (temp : ℝ) (resetRollout : K → Traj H A → Fin H → ℝ) (seedKey : K) :
    Traj H A :=
  runReverse split normal b0 bT Nd temp
    (resetRollout (split seedKey).2) (split (split seedKey).1).1
    (fun _ _ => 0)

/-- C5: the planner performs no configuration validation.  With the
invalid diffusion-step count `Ndiffuse = 1` (`< 2`) the reverse-loop index
list is empty, zero diffusion steps run, and for every choice of the
remaining parameters `runReverse` silently returns its initial estimate —
the embedding of `run_diffusion`'s setup is a total function and no
configuration error is raised anywhere. -/
theorem c5_no_validation {K : Type} (split : K → K × K) {H A Ns : ℕ}
    (normal : K → Fin Ns → Traj H A) (b0 bT temp : ℝ)
    (rollout : Traj H A → Fin H → ℝ) (rng : K) (Y : Traj H A) :
    diffusionIndices 1 = [] ∧
      runReverse split normal b0 bT 1 temp rollout rng Y = Y := by
  have h : diffusionIndices 1 = [] := by decide
  refine ⟨h, ?_⟩
  unfold runReverse
  rw [h]
  rfl

/-- C8: for every input log-probability vector over a nonempty candidate
population, the softmax importance weights are all nonnegative and sum
exactly to 1. -/
theorem c8_softmax_simplex {N : ℕ} (hN : 0 < N) (x : Fin N → ℝ) :
    (∀ n, 0 ≤ softmax x n) ∧ ∑ n, softmax x n = 1 :=
  ⟨softmax_nonneg hN x, softmax_sum_one hN x⟩

/-- Concrete witness for `c8_softmax_simplex` (`N = 2`, all-equal input). -/
theorem c8_softmax_simplex_witness :
    0 < 2 ∧ ((∀ n, 0 ≤ softmax (fun _ : Fin 2 => (0 : ℝ)) n) ∧
      ∑ n, softmax (fun _ : Fin 2 => (0 : ℝ)) n = 1) :=
  ⟨by norm_num, c8_softmax_simplex (by norm_num) _⟩

/-- C9: the simple variant is deterministic: two runs of `run_diffusion`
with the same seed key, the same configuration, the same deterministic key
splitter and noise generator, and the same deterministic environment
reset-and-rollout closure produce the identical final trajectory
estimate. -/
theorem c9_determinism {K : Type} (split : K → K × K) {H A Ns : ℕ}
    (normal : K → Fin Ns → Traj H A) (b0 bT : ℝ) (Nd : ℕ) (temp : ℝ)
    (resetRollout : K → Traj H A → Fin H → ℝ) (s1 s2 : K) (hs : s1 = s2) :
    run_diffusion split normal b0 bT Nd temp resetRollout s1
      = run_diffusion split normal b0 bT Nd temp resetRollout s2 := by
  rw [hs]

/-- Concrete witness for `c9_determinism` (seed key `0` twice, a concrete
splitter, zero noise and zero rewards, `Ndiffuse = 2`). -/
theorem c9_determinism_witness :
    (0 : ℕ) = 0 ∧
      run_diffusion (fun k : ℕ => (2 * k + 1, 2 * k + 2))
          ((fun _ _ _ => 0) : ℕ → Fin 1 → Traj 1 1) (1/10) (1/2) 2 1
          (fun _ _ _ => 0) 0
        = run_diffusion (fun k : ℕ => (2 * k + 1, 2 * k + 2))
          ((fun _ _ _ => 0) : ℕ → Fin 1 → Traj 1 1) (1/10) (1/2) 2 1
          (fun _ _ _ => 0) 0 :=
  ⟨rfl, c9_determinism (fun k : ℕ => (2 * k + 1, 2 * k + 2))
    ((fun _ _ _ => 0) : ℕ → Fin 1 → Traj 1 1) (1/10) (1/2) 2 1
    (fun _ _ _ => 0) 0 0 rfl⟩

/-- C10: for a diffusion index `i ≥ 1` on a schedule with
`0 < beta0 ≤ betaT` and `betas[i] < 1` (so `0 < betas[i] < 1`), the
score-conversion pipeline of `reverse_once` cancels algebraically: the
returned `Ybar_{i-1}` equals exactly the softmax-weighted mean of the
clipped candidates, and consequently every entry of the produced
trajectory estimate lies in `[-1, 1]`. -/
theorem c10_weighted_mean (b0 bT : ℝ) (Nd : ℕ) (temp : ℝ) {H A Ns : ℕ}
    (rollout : Traj H A → Fin H → ℝ) (i : ℕ) (Ybar : Traj H A)
    (eps : Fin Ns → Traj H A) (h0 : 0 < b0) (hle : b0 ≤ bT) (hN : 2 ≤ Nd)
    (hi1 : 1 ≤ i) (hbi : betas b0 bT Nd i < 1) (hNs : 0 < Ns) :
    (∀ h a, reverse_once b0 bT Nd temp rollout i Ybar eps h a
        = weightedMean
            (softmax (logp0 temp
              (rews rollout (candidates b0 bT Nd i Ybar eps))))
            (candidates b0 bT Nd i Ybar eps) h a) ∧
    (∀ h a, -1 ≤ reverse_once b0 bT Nd temp rollout i Ybar eps h a ∧
        reverse_once b0 bT Nd temp rollout i Ybar eps h a ≤ 1) := by
  have hbpos : ∀ k, b0 ≤ betas b0 bT Nd k := beta0_le_betas hle hN
  have hαpos : ∀ k, k ≤ i → 0 < alphas b0 bT Nd k := by
    intro k hk
    have h1 : betas b0 bT Nd k ≤ betas b0 bT Nd i := betas_mono hle hN hk
    unfold alphas
    linarith
  have hαle : ∀ k, alphas b0 bT Nd k ≤ 1 - b0 := alphas_le h0 hle hN
  have hab1pos : 0 < alphas_bar b0 bT Nd (i - 1) := by
    apply Finset.prod_pos
    intro k hk
    exact hαpos k (by have := Finset.mem_range.mp hk; omega)
  have habipos : 0 < alphas_bar b0 bT Nd i := by
    apply Finset.prod_pos
    intro k hk
    exact hαpos k (by have := Finset.mem_range.mp hk; omega)
  have hb0lt1 : b0 < 1 := lt_of_le_of_lt (hbpos i) hbi
  have habile : alphas_bar b0 bT Nd i ≤ (1 - b0) ^ (i + 1) := by
    unfold alphas_bar
    calc ∏ k ∈ Finset.range (i + 1), alphas b0 bT Nd k
        ≤ ∏ _k ∈ Finset.range (i + 1), (1 - b0) := by
          apply Finset.prod_le_prod
          · intro k hk
            exact (hαpos k (by have := Finset.mem_range.mp hk; omega)).le
          · intro k _
            exact hαle k
      _ = (1 - b0) ^ (i + 1) := by
          rw [Finset.prod_const, Finset.card_range]
  have habilt1 : alphas_bar b0 bT Nd i < 1 :=
    lt_of_le_of_lt habile
      (pow_lt_one (by linarith) (by linarith) (Nat.succ_ne_zero i))
  have hprod : alphas_bar b0 bT Nd i
      = alphas_bar b0 bT Nd (i - 1) * alphas b0 bT Nd i := by
    have hi' : i - 1 + 1 = i := Nat.succ_pred_eq_of_pos hi1
    rw [← hi', alphas_bar_succ, Nat.add_sub_cancel]
  have hmain : ∀ (h : Fin H) (a : Fin A),
      reverse_once b0 bT Nd temp rollout i Ybar eps h a
        = weightedMean
            (softmax (logp0 temp
              (rews rollout (candidates b0 bT Nd i Ybar eps))))
            (candidates b0 bT Nd i Ybar eps) h a := by
    intro h a
    unfold reverse_once latentStep Ybar_im1_of Yim1_of scoreOf Yi_of
    have h1 : (1 : ℝ) - alphas_bar b0 bT Nd i ≠ 0 := by linarith
    have h2 : (0 : ℝ) < Real.sqrt (alphas b0 bT Nd i) :=
      Real.sqrt_pos.mpr (hαpos i le_rfl)
    have h3 : (0 : ℝ) < Real.sqrt (alphas_bar b0 bT Nd (i - 1)) :=
      Real.sqrt_pos.mpr hab1pos
    have h4 : Real.sqrt (alphas_bar b0 bT Nd i)
        = Real.sqrt (alphas_bar b0 bT Nd (i - 1))
          * Real.sqrt (alphas b0 bT Nd i) := by
      rw [hprod, Real.sqrt_mul hab1pos.le]
    rw [h4]
    field_simp
    ring
  refine ⟨hmain, fun h a => ?_⟩
  rw [hmain h a]
  set w := softmax (logp0 temp
    (rews rollout (candidates b0 bT Nd i Ybar eps))) with hw
  have hw0 : ∀ n, 0 ≤ w n := softmax_nonneg hNs _
  have hw1 : ∑ n, w n = 1 := softmax_sum_one hNs _
  have hcv : ∀ n : Fin Ns, -1 ≤ candidates b0 bT Nd i Ybar eps n h a ∧
      candidates b0 bT Nd i Ybar eps n h a ≤ 1 :=
    fun n => ⟨lo_le_clip _ _ _ (by norm_num), clip_le_hi _ _ _⟩
  unfold weightedMean
  constructor
  · have : ∑ n, w n * (-1 : ℝ) ≤ ∑ n, w n * candidates b0 bT Nd i Ybar eps n h a := by
      apply Finset.sum_le_sum
      intro n _
      exact mul_le_mul_of_nonneg_left (hcv n).1 (hw0 n)
    have hsum : ∑ n, w n * (-1 : ℝ) = -1 := by
      rw [← Finset.sum_mul, hw1, one_mul]
    linarith
  · have : ∑ n, w n * candidates b0 bT Nd i Ybar eps n h a ≤ ∑ n, w n * 1 := by
      apply Finset.sum_le_sum
      intro n _
      exact mul_le_mul_of_nonneg_left (hcv n).2 (hw0 n)
    have hsum : ∑ n, w n * (1 : ℝ) = 1 := by
      rw [← Finset.sum_mul, hw1, one_mul]
    linarith

/-- Concrete witness for `c10_weighted_mean` (`beta0 = 1/10`,
`betaT = 1/2`, `Ndiffuse = 2`, step `i = 1`, zero noise and rewards). -/
theorem c10_weighted_mean_witness :
    ((0 : ℝ) < 1/10 ∧ (1/10 : ℝ) ≤ 1/2 ∧ 2 ≤ 2 ∧ 1 ≤ 1 ∧
      betas (1/10) (1/2) 2 1 < 1 ∧ 0 < 1) ∧
      (-1 ≤ reverse_once (1/10) (1/2) 2 1
          ((fun _ _ => 0) : Traj 1 1 → Fin 1 → ℝ) 1
          ((fun _ _ => 0) : Traj 1 1) ((fun _ _ _ => 0) : Fin 1 → Traj 1 1)
          0 0 ∧
        reverse_once (1/10) (1/2) 2 1
          ((fun _ _ => 0) : Traj 1 1 → Fin 1 → ℝ) 1
          ((fun _ _ => 0) : Traj 1 1) ((fun _ _ _ => 0) : Fin 1 → Traj 1 1)
          0 0 ≤ 1) :=
  ⟨⟨by norm_num, by norm_num, le_refl 2, le_refl 1,
      by unfold betas; norm_num, by norm_num⟩,
    (c10_weighted_mean (1/10) (1/2) 2 1
      ((fun _ _ => 0) : Traj 1 1 → Fin 1 → ℝ) 1
      ((fun _ _ => 0) : Traj 1 1) ((fun _ _ _ => 0) : Fin 1 → Traj 1 1)
      (by norm_num) (by norm_num) (le_refl 2) (le_refl 1)
      (by unfold betas; norm_num) (by norm_num)).2 0 0⟩

end MBD
